import Mathlib

/-!
Verification of the client-side router / templating core of the car-records
single-page application.  The JavaScript sources (`src/utils/dom.js`,
`src/utils/api.js` and the router module) are embedded shallowly: strings are
`List Char` where scanning matters, JS values are the inductive `Value`,
stateful parts (page cache, session storage) are explicit state records, and
`fetch` outcomes are an oracle argument.  Recursions that JavaScript performs
by re-scanning strings are written with an explicit fuel argument seeded with
the string length, so that every definition is structural and computable by
the kernel; fuel-irrelevance lemmas below show the seed is always sufficient.
-/

namespace CarSpa

/-! ## JavaScript values -/

/-! The JavaScript values the application passes around: `null`, booleans,
(integer) numbers, strings, arrays and plain objects.  Arrays and objects
carry mutually declared list types so every recursion over values is plain
structural recursion. -/

mutual
/-- A JavaScript value. -/
inductive Value where
  | vnull : Value
  | vbool : Bool → Value
  | vnum : Int → Value
  | vstr : String → Value
  | varr : ValueList → Value
  | vobj : ObjFields → Value

/-- The elements of an array value. -/
inductive ValueList where
  | nil : ValueList
  | cons : Value → ValueList → ValueList

/-- The fields of an object value, in insertion order. -/
inductive ObjFields where
  | fnil : ObjFields
  | fcons : String → Value → ObjFields → ObjFields
end

/-- The elements of an array value, as a `List`. -/
def ValueList.toList : ValueList → List Value
  | .nil => []
  | .cons v t => v :: t.toList

/-- First field with the given name. -/
def ObjFields.lookup : ObjFields → String → Option Value
  | .fnil, _ => none
  | .fcons k v t, key => if k = key then some v else t.lookup key

/-- JS property read `params[key]`: field lookup on objects; reading a
property of any other value yields `undefined` (`none`). -/
def Value.lookup : Value → String → Option Value
  | .vobj fields, k => fields.lookup k
  | _, _ => none

/-- JS general truthiness. -/
def truthy : Value → Bool
  | .vnull => false
  | .vbool b => b
  | .vnum n => n != 0
  | .vstr s => s != ""
  | .varr _ => true
  | .vobj _ => true

/-- Truthiness of a possibly-`undefined` value. -/
def truthyOpt : Option Value → Bool
  | none => false
  | some v => truthy v

mutual
/-- `String(v)`.  Array values follow `Array.prototype.toString`, i.e.
`join(",")` of the elements where a `null` element prints as the empty
string (`jsItemString`), and nested arrays are joined recursively. -/
def jsToString : Value → String
  | .vnull => "null"
  | .vbool b => if b then "true" else "false"
  | .vnum n => toString n
  | .vstr s => s
  | .vobj _ => "[object Object]"
  | .varr xs => jsArrString xs

/-- `join(",")` over the elements of an array value. -/
def jsArrString : ValueList → String
  | .nil => ""
  | .cons v .nil => jsItemString v
  | .cons v t => jsItemString v ++ "," ++ jsArrString t

/-- How one array element prints inside `join`: `null` (and only `null`)
prints as empty, everything else as `String(v)`. -/
def jsItemString : Value → String
  | .vnull => ""
  | .vbool b => if b then "true" else "false"
  | .vnum n => toString n
  | .vstr s => s
  | .vobj _ => "[object Object]"
  | .varr xs => jsArrString xs
end

/-! ## `escapeHtml` (src/utils/dom.js) -/

/-- The double-quote character. -/
def quoteChar : Char := Char.ofNat 34

/-- The single-quote character. -/
def aposChar : Char := Char.ofNat 39

/-- One global single-character replacement: `s.replace(/c/g, r)`. -/
def repl (c : Char) (r : List Char) : List Char → List Char
  | [] => []
  | x :: xs => (if x = c then r else [x]) ++ repl c r xs

/-- The entity `&#039;`. -/
def entApos : List Char := "&#039;".data

/-- The five chained global replacements of `escapeHtml`, in source order
(`&` first, then `<`, `>`, `"`, `'`). -/
def escapeHtmlL (s : List Char) : List Char :=
  repl aposChar entApos
    (repl quoteChar "&quot;".data
      (repl '>' "&gt;".data
        (repl '<' "&lt;".data
          (repl '&' "&amp;".data s))))

/-- `escapeHtml(unsafe)`: `String(unsafe)` and then the replacement chain. -/
def escapeHtml (v : Value) : List Char := escapeHtmlL (jsToString v).data

/-- Per-character form of the escape chain (proved equal to it below). -/
def escChar (c : Char) : List Char :=
  if c = '&' then "&amp;".data
  else if c = '<' then "&lt;".data
  else if c = '>' then "&gt;".data
  else if c = quoteChar then "&quot;".data
  else if c = aposChar then entApos
  else [c]

/-- `escChar` mapped over a string. -/
def escAll : List Char → List Char
  | [] => []
  | c :: t => escChar c ++ escAll t

/-- Every `&` in the list heads one of the five entities `escapeHtml` emits. -/
def ampOk : List Char → Bool
  | [] => true
  | c :: t =>
      (if c = '&' then
        (["amp;".data, "lt;".data, "gt;".data, "quot;".data,
            "#039;".data].any (fun e => e.isPrefixOf t))
      else true) && ampOk t

/-! ## Template scanning

The three patterns of `inject` are
`/\x7b\x7b#each\s+(\w+)\x7d\x7d([\s\S]*?)\x7b\x7b\/each\x7d\x7d/g`, the same
shape with `#if` / `/if`, and `/\x7b\x7b\s*(\w+)\s*\x7d\x7d/g`.  At a given
start position each pattern matches deterministically (its character classes
and literals are pairwise disjoint at every boundary, so backtracking never
produces a second parse), and the engine tries start positions left to right
with a lazy (`*?`) content group, i.e. the first closing literal wins. -/

/-- ASCII word characters, the class `\w`. -/
def isWord (c : Char) : Bool := c.isAlpha || c.isDigit || c = '_'

/-- Whitespace characters matched by `\s` (the ASCII ones the templates use). -/
def isWs (c : Char) : Bool :=
  c = ' ' || c = '\t' || c = '\n' || c = '\r' || c = Char.ofNat 11 || c = Char.ofNat 12

/-- The literal `\x7b\x7b#each`. -/
def openEach : List Char := ['{', '{', '#', 'e', 'a', 'c', 'h']

/-- The literal `\x7b\x7b/each\x7d\x7d`. -/
def closeEach : List Char := ['{', '{', '/', 'e', 'a', 'c', 'h', '}', '}']

/-- The literal `\x7b\x7b#if`. -/
def openIf : List Char := ['{', '{', '#', 'i', 'f']

/-- The literal `\x7b\x7b/if\x7d\x7d`. -/
def closeIf : List Char := ['{', '{', '/', 'i', 'f', '}', '}']

/-- The literal `\x7d\x7d`. -/
def closeBraces : List Char := ['}', '}']

/-- The literal `\x7b\x7b`. -/
def openBraces : List Char := ['{', '{']

/-- Whether `pat` occurs as a contiguous substring. -/
def containsPat (pat : List Char) : List Char → Bool
  | [] => pat.isPrefixOf []
  | c :: t => pat.isPrefixOf (c :: t) || containsPat pat t

/-- Split at the first occurrence of `pat`: `some (before, after)` where the
input is `before ++ pat ++ after` and `before` has no earlier occurrence. -/
def splitClose (pat : List Char) : List Char → Option (List Char × List Char)
  | [] => if pat.isEmpty then some ([], []) else none
  | c :: t =>
    if pat.isPrefixOf (c :: t) then some ([], (c :: t).drop pat.length)
    else (splitClose pat t).map (fun pr => (c :: pr.1, pr.2))

/-- Parse `lit` + `\s+` + `(\w+)` + `\x7d\x7d` at the head of the input,
returning the captured key and the rest. -/
def tryOpenBlock (lit : List Char) (l : List Char) : Option (List Char × List Char) :=
  if lit.isPrefixOf l then
    if ((l.drop lit.length).takeWhile isWs).isEmpty then none
    else
      if (((l.drop lit.length).dropWhile isWs).takeWhile isWord).isEmpty then none
      else
        if closeBraces.isPrefixOf (((l.drop lit.length).dropWhile isWs).dropWhile isWord) then
          some (((l.drop lit.length).dropWhile isWs).takeWhile isWord,
            (((l.drop lit.length).dropWhile isWs).dropWhile isWord).drop 2)
        else none
  else none

/-- Leftmost match of a block pattern `lit\s+(\w+)\x7d\x7d(lazy)close`:
try each start position left to right, exactly as the regex engine does.
Returns `(prefix, key, content, rest)`. -/
def findBlock (lit close : List Char) :
    List Char → Option (List Char × List Char × List Char × List Char)
  | [] => none
  | c :: t =>
    match tryOpenBlock lit (c :: t) with
    | some (key, afterOpen) =>
      match splitClose close afterOpen with
      | some (content, rest) => some ([], key, content, rest)
      | none => (findBlock lit close t).map (fun q => (c :: q.1, q.2.1, q.2.2.1, q.2.2.2))
    | none => (findBlock lit close t).map (fun q => (c :: q.1, q.2.1, q.2.2.1, q.2.2.2))

/-- Parse `\x7b\x7b\s*(\w+)\s*\x7d\x7d` at the head of the input. -/
def tryScalar (l : List Char) : Option (List Char × List Char) :=
  if openBraces.isPrefixOf l then
    if (((l.drop 2).dropWhile isWs).takeWhile isWord).isEmpty then none
    else
      if closeBraces.isPrefixOf
          ((((l.drop 2).dropWhile isWs).dropWhile isWord).dropWhile isWs) then
        some (((l.drop 2).dropWhile isWs).takeWhile isWord,
          ((((l.drop 2).dropWhile isWs).dropWhile isWord).dropWhile isWs).drop 2)
      else none
  else none

/-- Leftmost match of the scalar pattern: `(prefix, key, rest)`. -/
def findScalar : List Char → Option (List Char × List Char × List Char)
  | [] => none
  | c :: t =>
    match tryScalar (c :: t) with
    | some (key, rest) => some ([], key, rest)
    | none => (findScalar t).map (fun q => (c :: q.1, q.2.1, q.2.2))

/-! ## The three passes of `inject` -/

/-- Replacement text for one scalar placeholder:
`params[key] !== undefined ? escapeHtml(params[key]) : ''`. -/
def scalarReplace (p : Value) (key : List Char) : List Char :=
  match p.lookup (String.mk key) with
  | some v => escapeHtml v
  | none => []

/-- The scalar-interpolation pass.  Replacement continues after the match in
the input; replacement text is not rescanned.  One iteration consumes at
least five characters, so fuel `t.length` (the wrapper's seed) never runs
out before the scan is done. -/
def scalarPassF (p : Value) : Nat → List Char → List Char
  | 0, t => t
  | f + 1, t =>
    match findScalar t with
    | none => t
    | some (pre, key, rest) => pre ++ scalarReplace p key ++ scalarPassF p f rest

/-- The scalar pass, fuel seeded. -/
def scalarPass (p : Value) (t : List Char) : List Char := scalarPassF p t.length t

/-- The conditional pass: `params[key] ? content : ''`; the kept content is
passed through, not reprocessed. -/
def ifPassF (p : Value) : Nat → List Char → List Char
  | 0, t => t
  | f + 1, t =>
    match findBlock openIf closeIf t with
    | none => t
    | some (pre, key, content, rest) =>
      pre ++ (if truthyOpt (p.lookup (String.mk key)) then content else [])
          ++ ifPassF p f rest

/-- The conditional pass, fuel seeded. -/
def ifPass (p : Value) (t : List Char) : List Char := ifPassF p t.length t

/-- Replacement text of one iteration block:
`Array.isArray(arr) ? arr.map(item => inject(content, item)).join('') : ''`,
abstracted over the recursive render `rec`. -/
def eachReplace (rec : Value → List Char) (p : Value) (key : List Char) : List Char :=
  match p.lookup (String.mk key) with
  | some (.varr xs) => (xs.toList.map rec).flatten
  | _ => []

/-- The iteration pass.  A non-array value renders as empty; an array renders
the block body once per element, the element becoming the parameter object of
a nested full `inject` (the inlined `scalarPass ∘ ifPass ∘ eachPassF` is
exactly `inject` modulo the fuel seed; see the fuel-irrelevance lemma). -/
def eachPassF : Nat → List Char → Value → List Char
  | 0, t, _ => t
  | f + 1, t, p =>
    match findBlock openEach closeEach t with
    | none => t
    | some (pre, key, content, rest) =>
      pre ++
        eachReplace (fun item => scalarPass item (ifPass item (eachPassF f content item)))
          p key ++
        eachPassF f rest p

/-- The iteration pass, fuel seeded. -/
def eachPass (t : List Char) (p : Value) : List Char := eachPassF t.length t p

/-- `inject(html, params)`: iteration blocks first, then conditionals, then
scalar interpolation — each pass running on the previous pass's output. -/
def injectL (t : List Char) (p : Value) : List Char :=
  scalarPass p (ifPass p (eachPassF t.length t p))

/-- `inject` on `String`s. -/
def inject (html : String) (p : Value) : String := String.mk (injectL html.data p)

/-! ## Page cache and router (src/unnamed/part_004) -/

/-- Association-list lookup (JS `Map.get` / `sessionStorage.getItem`). -/
def alookup : List (String × String) → String → Option String
  | [], _ => none
  | kv :: t, k => if kv.1 = k then some kv.2 else alookup t k

/-- Association-list update keeping the original position of an existing key
(JS `Map.set` / `sessionStorage.setItem`). -/
def aset : List (String × String) → String → String → List (String × String)
  | [], k, v => [(k, v)]
  | kv :: t, k, v => if kv.1 = k then (k, v) :: t else kv :: aset t k v

/-- `String.prototype.startsWith`. -/
def strHasPrefix (p s : String) : Bool := p.data.isPrefixOf s.data

/-- The two stores backing the page cache: the in-memory `Map` and
session storage. -/
structure RouterState where
  pageCache : List (String × String)
  session : List (String × String)
deriving DecidableEq

/-- The shipped value of the `usePersistentCache` flag. -/
def usePersistentCache : Bool := false

/-- `cacheKey(page, type)` — the session-storage key. -/
def cacheKey (page ty : String) : String := "RouterCache:" ++ ty ++ ":" ++ page

/-- The in-memory `Map` key for page content of the given kind. -/
def memKey (page ty : String) : String := ty ++ ":" ++ page

/-- `getCachedPage(page, type)`.  In persistent mode a truthy session hit is
returned; a missing or falsy session value falls through to the in-memory
map, whose result is coerced with `|| null` (empty string becomes a miss). -/
def getCachedPage (persistent : Bool) (st : RouterState) (page ty : String) : Option String :=
  let memHit : Option String :=
    match alookup st.pageCache (memKey page ty) with
    | some v => if v = "" then none else some v
    | none => none
  if persistent then
    match alookup st.session (cacheKey page ty) with
    | some c => if c = "" then memHit else some c
    | none => memHit
  else memHit

/-- `setCachedPage(page, content, type)`. -/
def setCachedPage (persistent : Bool) (st : RouterState) (page content ty : String) :
    RouterState :=
  if persistent then { st with session := aset st.session (cacheKey page ty) content }
  else { st with pageCache := aset st.pageCache (memKey page ty) content }

/-- `clearCache()`: in persistent mode remove exactly the session keys with
the `RouterCache:` prefix; the in-memory map is cleared unconditionally. -/
def clearCache (persistent : Bool) (st : RouterState) : RouterState :=
  { pageCache := [],
    session :=
      if persistent then st.session.filter (fun kv => !(strHasPrefix "RouterCache:" kv.1))
      else st.session }

/-- Outcome of one `fetch`: the promise rejects (network failure) or resolves
with a response carrying `ok` (HTTP status in the 200s) and its body text. -/
inductive Fetch where
  | netError : Fetch
  | resp : Bool → String → Fetch
deriving DecidableEq

/-- `loadPageScript(page)`: cache-or-fetch of the page's companion script.
The returned `Option String` is the `jsCode` the hydrate closure captures
(`none` when nothing was loaded).  Only an `ok` response is used; a non-ok
response and a network error both leave the cache untouched and the capture
empty. -/
def loadPageScript (persistent : Bool) (st : RouterState) (page : String) (fscr : Fetch) :
    Option String × RouterState :=
  match getCachedPage persistent st page "js" with
  | some js => (some js, st)
  | none =>
    match fscr with
    | .netError => (none, st)
    | .resp ok text =>
      if ok then (some text, setCachedPage persistent st page text "js") else (none, st)

/-- Running the hydrate closure `() => { if (jsCode) eval(jsCode) }`: the
script text that gets evaluated, if any. -/
def hydrateRun : Option String → Option String
  | some s => if s = "" then none else some s
  | none => none

/-- `getParams()`: the query pairs folded into a plain object — a later
occurrence of a key overwrites the earlier value in place. -/
def buildParams (search : List (String × String)) : List (String × String) :=
  search.foldl (fun acc kv => aset acc kv.1 kv.2) []

/-- `params.page || 'home'`. -/
def pageOf (params : List (String × String)) : String :=
  match alookup params "page" with
  | some v => if v = "" then "home" else v
  | none => "home"

/-- The page a query string routes to. -/
def routePage (search : List (String × String)) : String := pageOf (buildParams search)

/-- A string-valued parameter list as object fields. -/
def fieldsOfParams : List (String × String) → ObjFields
  | [] => .fnil
  | kv :: t => .fcons kv.1 (.vstr kv.2) (fieldsOfParams t)

/-- The parameter object as a JS value, as handed to `inject`. -/
def paramsValue (params : List (String × String)) : Value :=
  .vobj (fieldsOfParams params)

/-- The synthesized error body. -/
def errorHtml (page : String) : String := "<h2>Error loading page: " ++ page ++ "</h2>"

/-- How a route-change ended: a registered handler was invoked with
`(html, params, hydrate)` where the last component is the script text the
hydrate closure captured (`none` = a no-op closure); or the default path
rendered content into the root and ran hydrate (recording any script text it
evaluated); or the catch-path default rendered the error body raw, with no
hydrate call. -/
inductive Dispatch where
  | toHandler : String → List (String × String) → Option String → Dispatch
  | defaultRender : String → Option String → Dispatch
  | defaultErrorRender : String → Dispatch
deriving DecidableEq

/-- A route-change's dispatch plus the resulting cache state. -/
structure RouteResult where
  dispatch : Dispatch
  state : RouterState
deriving DecidableEq

/-- The shared tail of the try-block: load the script, then either hand the
html to the registered handler or default-render `inject(html, params)` and
run hydrate. -/
def dispatchStep (persistent : Bool) (handlerRegistered : Bool)
    (params : List (String × String)) (page html : String) (st : RouterState)
    (fscr : Fetch) : RouteResult :=
  let js := loadPageScript persistent st page fscr
  if handlerRegistered then ⟨.toHandler html params js.1, js.2⟩
  else ⟨.defaultRender (inject html (paramsValue params)) (hydrateRun js.1), js.2⟩

/-- `handleRouteChange()`.  The template response's `ok` flag is never
consulted: any resolved response's body is cached and dispatched; only a
rejected fetch reaches the catch block, which synthesizes `errorHtml` and
dispatches it (handler with a no-op hydrate, or a raw render with no
hydrate call) without touching the cache. -/
def handleRouteChange (persistent : Bool) (st : RouterState)
    (search : List (String × String)) (handlers : List String)
    (ftpl fscr : Fetch) : RouteResult :=
  let params := buildParams search
  let page := pageOf params
  let handlerRegistered := handlers.contains page
  match getCachedPage persistent st page "html" with
  | some html => dispatchStep persistent handlerRegistered params page html st fscr
  | none =>
    match ftpl with
    | .netError =>
      if handlerRegistered then ⟨.toHandler (errorHtml page) params none, st⟩
      else ⟨.defaultErrorRender (errorHtml page), st⟩
    | .resp _ text =>
      dispatchStep persistent handlerRegistered params page text
        (setCachedPage persistent st page text "html") fscr

/-! ## `navigate` (query-string computation) -/

/-- A query string as its ordered list of name-value pairs. -/
abbrev QueryList := List (String × String)

/-- `allowedKeys = new Set(['page', ...Object.keys(params)])`. -/
def allowedKeys (params : List (String × Option String)) (k : String) : Bool :=
  k == "page" || (params.map Prod.fst).contains k

/-- `url.searchParams.delete(name)`: removes every pair with that name. -/
def spDelete (k : String) (l : QueryList) : QueryList := l.filter (fun kv => kv.1 != k)

/-- `url.searchParams.set(name, value)`: overwrite the first pair with that
name in place and drop any later duplicates, else append. -/
def spSet (k v : String) : QueryList → QueryList
  | [] => [(k, v)]
  | kv :: t => if kv.1 = k then (k, v) :: spDelete k t else kv :: spSet k v t

/-- The `for (const key of url.searchParams.keys())` deletion loop.  The keys
iterator is a live index into the pair list (a Web IDL pair iterator), so the
loop is an explicit index into the *current* list: deleting the entry at the
index shifts the next entry onto it, and that entry is never examined.  The
fuel (seeded with the list length, which bounds the number of iterations
since the list never grows) only ever runs out once the index has left the
list. -/
def navLoopF (allowed : String → Bool) (preserve : Bool) :
    Nat → Nat → QueryList → QueryList
  | 0, _, l => l
  | f + 1, i, l =>
    if h : i < l.length then
      if !allowed (l.get ⟨i, h⟩).1 && !preserve then
        navLoopF allowed preserve f (i + 1) (spDelete (l.get ⟨i, h⟩).1 l)
      else navLoopF allowed preserve f (i + 1) l
    else l

/-- `Object.entries(params).forEach(...)`: `null` deletes the key, any other
value sets it. -/
def applyParams (params : List (String × Option String)) (l : QueryList) : QueryList :=
  params.foldl
    (fun acc kv =>
      match kv.2 with
      | none => spDelete kv.1 acc
      | some v => spSet kv.1 v acc) l

/-- `navigate(params, options)` restricted to its effect on the query pairs:
the deletion loop over the existing keys, then the application of `params`. -/
def navigateQuery (current : QueryList) (params : List (String × Option String))
    (preserve : Bool) : QueryList :=
  applyParams params (navLoopF (allowedKeys params) preserve current.length 0 current)

/-- What the deletion loop computes on distinct keys: a removed entry makes
the entry right after it be skipped (kept without being examined). -/
def deleteRun (allowed : String → Bool) : QueryList → QueryList
  | [] => []
  | [kv] => if allowed kv.1 then [kv] else []
  | kv :: kv' :: t =>
    if allowed kv.1 then kv :: deleteRun allowed (kv' :: t)
    else kv' :: deleteRun allowed t

/-- No two consecutive entries both fail `allowed` — the condition under
which the live-iterator skip cannot retain a disallowed key. -/
def noConsecDisallowed (allowed : String → Bool) : QueryList → Bool
  | kv :: kv' :: t => (allowed kv.1 || allowed kv'.1) && noConsecDisallowed allowed (kv' :: t)
  | _ => true

/-! ## `api` (src/utils/api.js) -/

/-- The API base path. -/
def baseURL : String := "https://iit-playground.arondev.hu/api/FJYXPC/"

/-- The request options a caller may pass to `fetch`. -/
structure RequestInit where
  method : Option String
  body : Option String
deriving DecidableEq

/-- The request a `fetch(url, init)` call issues: the method defaults to
`GET` and the body to nothing when `init` leaves them unset. -/
structure HttpRequest where
  method : String
  url : String
  body : Option String
deriving DecidableEq

/-- The request `fetch(url, init)` issues. -/
def fetchRequest (url : String) (init : RequestInit) : HttpRequest :=
  { method := init.method.getD "GET", url := url, body := init.body }

/-- `api(url, params)` — note the literal `\x7b\x7d` the source passes to
`fetch` in place of `params`. -/
def api (url : String) (_params : RequestInit) : HttpRequest :=
  fetchRequest (baseURL ++ url) ⟨none, none⟩

/-! ## Association-list and prefix lemmas -/

theorem alookup_aset_self (m : List (String × String)) (k v : String) :
    alookup (aset m k v) k = some v := by
  induction m with
  | nil => simp [aset, alookup]
  | cons kv t ih =>
    by_cases h : kv.1 = k
    · simp [aset, h, alookup]
    · simp [aset, h, alookup, ih]

theorem alookup_aset_ne (m : List (String × String)) (k k' v : String) (h : k ≠ k') :
    alookup (aset m k v) k' = alookup m k' := by
  induction m with
  | nil => simp [aset, alookup, h]
  | cons kv t ih =>
    by_cases hk : kv.1 = k
    · have hkv : kv.1 ≠ k' := by rw [hk]; exact h
      simp [aset, hk, alookup, h, hkv]
    · simp [aset, hk, alookup, ih]

theorem isPrefixOf_append_left (a b : List Char) : a.isPrefixOf (a ++ b) = true := by
  induction a with
  | nil => simp [List.isPrefixOf]
  | cons c t ih => simp [List.isPrefixOf, ih]

theorem strHasPrefix_cacheKey (page ty : String) :
    strHasPrefix "RouterCache:" (cacheKey page ty) = true := by
  show ("RouterCache:".data).isPrefixOf ((("RouterCache:" ++ ty) ++ ":") ++ page).data = true
  simp only [String.data_append, List.append_assoc]
  exact isPrefixOf_append_left _ _

theorem alookup_filter_key (q : String → Bool) (m : List (String × String)) (k : String) :
    alookup (m.filter (fun kv => q kv.1)) k =
      if q k = true then alookup m k else none := by
  induction m with
  | nil => simp [alookup]
  | cons kv t ih =>
    by_cases hq : q kv.1 = true
    · by_cases hk : kv.1 = k
      · subst hk; simp [List.filter_cons, hq, alookup, ih]
      · simp [List.filter_cons, hq, alookup, hk, ih]
    · have hq' : q kv.1 = false := by simpa using hq
      by_cases hk : kv.1 = k
      · subst hk; simp [List.filter_cons, hq', alookup, ih]
      · simp [List.filter_cons, hq', alookup, hk, ih]

/-! ## C9 — the `api` helper ignores its options argument -/

/-- C9: `api(url, params)` discards `params` entirely: any two option objects
produce the identical request, namely a `GET` of `baseURL + url` with the
empty option object (no method override, no body) — so the `POST`/`PUT`/
`DELETE` methods and JSON bodies the page handlers pass never reach the
server. -/
theorem c9_api_ignores_options :
    ∀ (url : String) (p1 p2 : RequestInit),
      api url p1 = api url p2 ∧
      api url p1 = { method := "GET", url := baseURL ++ url, body := none } :=
  fun _ _ _ => ⟨rfl, rfl⟩

/-! ## C6 — cache backend selection -/

/-- C6: every cache operation routes through the single `persistent` flag.
Transient mode: `get` reads only the in-memory map, `put` writes only the
in-memory map, and `clear` empties that map entirely while leaving session
storage alone.  Persistent mode: `put` writes only session storage, always
under a key with the fixed `RouterCache:` prefix; `clear` removes exactly
the session keys with that prefix (all others survive) and leaves no
in-memory entries; and with the in-memory map empty (as every
persistent-mode operation keeps it), `get` is determined by session
storage. -/
theorem c6_cache_backend_selection :
    (∀ (st : RouterState) (page ty : String),
       getCachedPage false st page ty =
         (match alookup st.pageCache (memKey page ty) with
          | some v => if v = "" then none else some v
          | none => none))
  ∧ (∀ (st : RouterState) (page content ty : String),
       (setCachedPage false st page content ty).session = st.session ∧
       (setCachedPage false st page content ty).pageCache =
         aset st.pageCache (memKey page ty) content)
  ∧ (∀ st : RouterState, clearCache false st = ⟨[], st.session⟩)
  ∧ (∀ (st : RouterState) (page content ty : String),
       (setCachedPage true st page content ty).pageCache = st.pageCache ∧
       (setCachedPage true st page content ty).session =
         aset st.session (cacheKey page ty) content ∧
       strHasPrefix "RouterCache:" (cacheKey page ty) = true)
  ∧ (∀ (st : RouterState) (k : String),
       alookup (clearCache true st).session k =
         if strHasPrefix "RouterCache:" k = true then none else alookup st.session k)
  ∧ (∀ st : RouterState, (clearCache true st).pageCache = [])
  ∧ (∀ (s : List (String × String)) (page ty : String),
       getCachedPage true ⟨[], s⟩ page ty =
         (match alookup s (cacheKey page ty) with
          | some c => if c = "" then none else some c
          | none => none)) := by
  refine ⟨fun st page ty => rfl, fun st page content ty => ⟨rfl, rfl⟩,
    fun st => rfl, fun st page content ty => ⟨rfl, rfl, strHasPrefix_cacheKey page ty⟩,
    fun st k => ?_, fun st => rfl, fun s page ty => ?_⟩
  · show alookup (st.session.filter (fun kv => !(strHasPrefix "RouterCache:" kv.1))) k = _
    rw [alookup_filter_key (fun s => !(strHasPrefix "RouterCache:" s))]
    by_cases h : strHasPrefix "RouterCache:" k = true <;> simp [h]
  · cases halk : alookup s (cacheKey page ty) with
    | none => simp [getCachedPage, alookup, halk]
    | some c => by_cases hc : c = "" <;> simp [getCachedPage, alookup, halk, hc]

/-! ## C7 — cache round-trip -/

/-- C7: in either backend mode, `put` followed by `get` of the same
`(page, kind)` returns the identical (non-empty) text, and after `clear()`
every `get` is a miss. -/
theorem c7_cache_roundtrip :
    (∀ (persistent : Bool) (st : RouterState) (page ty content : String),
       content ≠ "" →
       getCachedPage persistent (setCachedPage persistent st page content ty) page ty =
         some content)
  ∧ (∀ (persistent : Bool) (st : RouterState) (page ty : String),
       getCachedPage persistent (clearCache persistent st) page ty = none) := by
  constructor
  · intro persistent st page ty content hc
    cases persistent with
    | false => simp [getCachedPage, setCachedPage, alookup_aset_self, hc]
    | true => simp [getCachedPage, setCachedPage, alookup_aset_self, hc]
  · intro persistent st page ty
    cases persistent with
    | false => simp [getCachedPage, clearCache, alookup]
    | true =>
      have hs : (clearCache true st).session =
          st.session.filter (fun kv => !(strHasPrefix "RouterCache:" kv.1)) := rfl
      have hp : (clearCache true st).pageCache = ([] : List (String × String)) := rfl
      simp [getCachedPage, hs, hp,
        alookup_filter_key (fun s => !(strHasPrefix "RouterCache:" s)),
        strHasPrefix_cacheKey, alookup]

/-- Witness for C7 at the claim's own inputs. -/
theorem c7_cache_roundtrip_witness :
    getCachedPage false (setCachedPage false ⟨[], []⟩ "car" "<h1>X</h1>" "html") "car" "html" =
      some "<h1>X</h1>" ∧
    getCachedPage false
        (clearCache false (setCachedPage false ⟨[], []⟩ "car" "<h1>X</h1>" "html"))
        "car" "html" = none :=
  ⟨c7_cache_roundtrip.1 false ⟨[], []⟩ "car" "html" "<h1>X</h1>" (by decide),
   c7_cache_roundtrip.2 false (setCachedPage false ⟨[], []⟩ "car" "<h1>X</h1>" "html")
     "car" "html"⟩

/-! ## C10 — storing the empty string is a miss -/

/-- C10: `put(page, kind, "")` followed by `get(page, kind)` returns absent:
retrieval treats any falsy cached value as a miss (transient mode
unconditionally; persistent mode provided the in-memory map — which
persistent-mode writes never touch — has no entry for that key), and a falsy
session value indeed falls through to the in-memory store, whose non-empty
entry would be returned instead. -/
theorem c10_empty_put_is_miss :
    (∀ (persistent : Bool) (st : RouterState) (page ty : String),
       (persistent = true → alookup st.pageCache (memKey page ty) = none) →
       getCachedPage persistent (setCachedPage persistent st page "" ty) page ty = none)
  ∧ (∀ (m s : List (String × String)) (page ty v : String),
       alookup s (cacheKey page ty) = some "" →
       alookup m (memKey page ty) = some v → v ≠ "" →
       getCachedPage true ⟨m, s⟩ page ty = some v) := by
  constructor
  · intro persistent st page ty hmem
    cases persistent with
    | false => simp [getCachedPage, setCachedPage, alookup_aset_self]
    | true => simp [getCachedPage, setCachedPage, alookup_aset_self, hmem rfl]
  · intro m s page ty v hs hm hv
    simp [getCachedPage, hs, hm, hv]

/-- Witness for C10 in both modes. -/
theorem c10_empty_put_is_miss_witness :
    getCachedPage false (setCachedPage false ⟨[("x", "y")], []⟩ "car" "" "html") "car" "html" =
      none ∧
    getCachedPage true ⟨[("html:car", "M")], [("RouterCache:html:car", "")]⟩ "car" "html" =
      some "M" :=
  ⟨c10_empty_put_is_miss.1 false ⟨[("x", "y")], []⟩ "car" "html" (by simp),
   c10_empty_put_is_miss.2 [("html:car", "M")] [("RouterCache:html:car", "")] "car" "html" "M"
     (by decide) (by decide) (by decide)⟩

/-! ## C8 — a non-success script response is "no script" -/

/-- C8: with the page's companion script uncached, a script GET that
resolves with a non-success status is treated as "no script for this page":
`loadPageScript` returns along the normal path with the state unchanged (the
script cache is not written) and the hydrate closure captures no script, so
running it evaluates nothing. -/
theorem c8_script_nonsuccess_is_no_script :
    ∀ (persistent : Bool) (st : RouterState) (page body : String),
      getCachedPage persistent st page "js" = none →
      loadPageScript persistent st page (.resp false body) = (none, st) ∧
      hydrateRun (loadPageScript persistent st page (.resp false body)).1 = none := by
  intro persistent st page body h
  simp [loadPageScript, h, hydrateRun]

/-- Witness for C8. -/
theorem c8_script_nonsuccess_is_no_script_witness :
    loadPageScript false ⟨[], []⟩ "home" (.resp false "nope") = (none, ⟨[], []⟩) ∧
    hydrateRun (loadPageScript false ⟨[], []⟩ "home" (.resp false "nope")).1 = none :=
  c8_script_nonsuccess_is_no_script false ⟨[], []⟩ "home" "nope" (by decide)

/-! ## C1 — template-fetch failure handling -/

/-- C1 counterexample: the claim says a non-success HTTP status on the
template GET is a template-fetch failure (error body synthesized, fetched
body not cached).  But with an empty cache, a handler registered for
`home`, and the template GET resolving `404`-style with body `"NOT FOUND"`,
the router caches that body and hands it — not the synthesized error body —
to the handler. -/
theorem c1_counterexample :
    handleRouteChange false ⟨[], []⟩ [] ["home"] (.resp false "NOT FOUND") (.resp false "") =
      ⟨.toHandler "NOT FOUND" [] none, ⟨[("html:home", "NOT FOUND")], []⟩⟩ ∧
    getCachedPage false ⟨[("html:home", "NOT FOUND")], []⟩ "home" "html" = some "NOT FOUND" ∧
    "NOT FOUND" ≠ errorHtml "home" :=
  ⟨by decide, by decide, by decide⟩

/-- C1 (amended): only a rejected template fetch (network error) is a
template-fetch failure; a resolved response with a non-success status is
processed exactly as a success would be (identical result: body cached and
dispatched with the real hydrate closure).  On a network error the router
synthesizes the minimal error body, leaves the state — hence the cache —
untouched, and routes the error body through the dispatch step: a registered
handler receives it together with a no-op hydrate, and the default path
renders it into the output target raw, with no hydrate call. -/
theorem c1_amended_template_failure :
    ∀ (persistent : Bool) (st : RouterState) (search : List (String × String))
      (handlers : List String) (body : String) (fscr : Fetch),
      (handleRouteChange persistent st search handlers (.resp false body) fscr =
        handleRouteChange persistent st search handlers (.resp true body) fscr)
      ∧ (getCachedPage persistent st (routePage search) "html" = none →
          handleRouteChange persistent st search handlers .netError fscr =
            ⟨if handlers.contains (routePage search) then
                .toHandler (errorHtml (routePage search)) (buildParams search) none
              else .defaultErrorRender (errorHtml (routePage search)), st⟩) := by
  intro persistent st search handlers body fscr
  constructor
  · rfl
  · intro h
    unfold routePage at h
    simp only [handleRouteChange, routePage]
    rw [h]
    by_cases hc : handlers.contains (pageOf (buildParams search)) = true
    · rw [if_pos hc, if_pos hc]
    · rw [if_neg hc, if_neg hc]

/-- Witness for C1 (amended), network-error case. -/
theorem c1_amended_template_failure_witness :
    handleRouteChange false ⟨[], []⟩ [("page", "car")] [] .netError .netError =
      ⟨.defaultErrorRender (errorHtml "car"), ⟨[], []⟩⟩ := by
  rw [(c1_amended_template_failure false ⟨[], []⟩ [("page", "car")] [] "B" .netError).2
    (by decide)]
  decide

/-! ## Navigate: the deletion loop over a live iterator -/

theorem navLoopF_out (allowed : String → Bool) (preserve : Bool) (i : Nat) (l : QueryList)
    (h : l.length ≤ i) : ∀ f, navLoopF allowed preserve f i l = l
  | 0 => rfl
  | f + 1 => by rw [navLoopF, dif_neg (Nat.not_lt.mpr h)]

theorem navLoopF_preserve (allowed : String → Bool) :
    ∀ (f i : Nat) (l : QueryList), navLoopF allowed true f i l = l
  | 0, _, _ => rfl
  | f + 1, i, l => by
    by_cases h : i < l.length
    · rw [navLoopF, dif_pos h, if_neg (by simp)]
      exact navLoopF_preserve allowed f (i + 1) l
    · rw [navLoopF, dif_neg h]

/-- `searchParams.delete` of the key of an entry, on a list with distinct
keys: exactly that entry disappears. -/
theorem spDelete_split (front rest' : QueryList) (x : String × String)
    (h : ((front ++ x :: rest').map Prod.fst).Nodup) :
    spDelete x.1 (front ++ x :: rest') = front ++ rest' := by
  rw [List.map_append, List.nodup_append] at h
  obtain ⟨h1, h2, hdisj⟩ := h
  have hx_notin : x.1 ∉ rest'.map Prod.fst := by
    simp only [List.map_cons, List.nodup_cons] at h2
    exact h2.1
  have hf : List.filter (fun kv => kv.1 != x.1) front = front := by
    rw [List.filter_eq_self]
    intro kv hkv
    have hm : kv.1 ∈ front.map Prod.fst := List.mem_map_of_mem _ hkv
    have hne : kv.1 ≠ x.1 := fun he => hdisj hm (by simp [he])
    simpa using hne
  have hr : List.filter (fun kv => kv.1 != x.1) rest' = rest' := by
    rw [List.filter_eq_self]
    intro kv hkv
    have hm : kv.1 ∈ rest'.map Prod.fst := List.mem_map_of_mem _ hkv
    have hne : kv.1 ≠ x.1 := fun he => hx_notin (he ▸ hm)
    simpa using hne
  simp [spDelete, List.filter_append, hf, hr, List.filter_cons, hr]

/-- The deletion loop, started at the boundary `front ++ rest` with the index
on the first entry of `rest` and distinct keys overall, computes
`deleteRun` on `rest`: full left-to-right processing except that the entry
right after a deleted one is skipped. -/
theorem navLoopF_deleteRun (allowed : String → Bool) :
    ∀ (n : Nat) (rest front : QueryList) (f : Nat),
      rest.length = n →
      ((front ++ rest).map Prod.fst).Nodup →
      rest.length ≤ f →
      navLoopF allowed false f front.length (front ++ rest) =
        front ++ deleteRun allowed rest := by
  intro n
  induction n using Nat.strong_induction_on with
  | _ n ih =>
    intro rest front f hn hnd hf
    subst hn
    cases rest with
    | nil =>
      rw [List.append_nil, deleteRun, List.append_nil]
      exact navLoopF_out allowed false front.length front (le_refl _) f
    | cons x rest' =>
      obtain ⟨f', rfl⟩ : ∃ f', f = f' + 1 :=
        ⟨f - 1, by simp at hf; omega⟩
      have hi : front.length < (front ++ x :: rest').length := by simp
      have hget : ((front ++ x :: rest').get ⟨front.length, hi⟩) = x := by
        simp [List.get_eq_getElem, List.getElem_append_right (le_refl front.length)]
      rw [navLoopF, dif_pos hi, hget]
      by_cases ha : allowed x.1 = true
      · rw [if_neg (by simp [ha])]
        have hres : front ++ x :: rest' = (front ++ [x]) ++ rest' := by simp
        have hlen1 : front.length + 1 = (front ++ [x]).length := by simp
        rw [hres, hlen1,
          ih rest'.length (by simp only [List.length_cons]; omega) rest' (front ++ [x]) f' rfl
            (hres ▸ hnd) (by simp only [List.length_cons] at hf; omega)]
        cases rest' <;> simp [deleteRun, ha]
      · rw [if_pos (by simp [ha]), spDelete_split front rest' x hnd]
        cases rest' with
        | nil =>
          rw [List.append_nil,
            navLoopF_out allowed false (front.length + 1) front (by omega) f']
          simp [deleteRun, ha]
        | cons y rest'' =>
          have hres : front ++ y :: rest'' = (front ++ [y]) ++ rest'' := by simp
          have hlen1 : front.length + 1 = (front ++ [y]).length := by simp
          have hnd' : (((front ++ [y]) ++ rest'').map Prod.fst).Nodup := by
            rw [← hres]
            have hsub : (front ++ y :: rest'').Sublist (front ++ x :: y :: rest'') :=
              List.Sublist.append_left (List.sublist_cons_self x (y :: rest'')) front
            exact List.Nodup.sublist (List.Sublist.map Prod.fst hsub) hnd
          rw [hres, hlen1,
            ih rest''.length (by simp only [List.length_cons]; omega) rest'' (front ++ [y]) f'
              rfl hnd' (by simp only [List.length_cons] at hf; omega)]
          simp [deleteRun, ha]

theorem deleteRun_cons_allowed (allowed : String → Bool) (kv : String × String)
    (t : QueryList) (h : allowed kv.1 = true) :
    deleteRun allowed (kv :: t) = kv :: deleteRun allowed t := by
  cases t <;> simp [deleteRun, h]

/-- When no two consecutive entries are both disallowed, the skip never hides
a disallowed entry, and the loop behaves as the plain filter. -/
theorem deleteRun_eq_filter (allowed : String → Bool) :
    ∀ l : QueryList, noConsecDisallowed allowed l = true →
      deleteRun allowed l = l.filter (fun kv => allowed kv.1) := by
  intro l
  induction l with
  | nil => intro _; rfl
  | cons x t ih =>
    cases t with
    | nil =>
      intro _
      cases hx : allowed x.1 <;> simp [deleteRun, hx, List.filter_cons]
    | cons y t' =>
      intro h
      rw [noConsecDisallowed, Bool.and_eq_true] at h
      obtain ⟨hxy, ht⟩ := h
      cases hx : allowed x.1 with
      | true =>
        rw [deleteRun_cons_allowed allowed x (y :: t') hx, ih ht]
        simp [List.filter_cons, hx]
      | false =>
        have hy : allowed y.1 = true := by
          rw [hx] at hxy; simpa using hxy
        have hrec := ih ht
        rw [deleteRun_cons_allowed allowed y t' hy, List.filter_cons, if_pos hy] at hrec
        have ht' : deleteRun allowed t' = t'.filter (fun kv => allowed kv.1) := by
          simpa using hrec
        simp [deleteRun, hx, hy, List.filter_cons, ht']

/-! ## C2 — the query string `navigate` computes -/

/-- C2 counterexample: with current query `a=1&b=2` and
`navigate(\x7bpage:"x"\x7d)` without `preserveParams`, the allow-list is
`\x7b"page"\x7d`, so the claim requires both `a` and `b` to be dropped; but
deleting `a` advances the live keys iterator past `b`, which survives into
the result even though it is outside the allow-list. -/
theorem c2_counterexample :
    navigateQuery [("a", "1"), ("b", "2")] [("page", some "x")] false =
      [("b", "2"), ("page", "x")] ∧
    allowedKeys [("page", some "x")] "b" = false :=
  ⟨by decide, by decide⟩

/-- C2 (amended): with `preserveParams` the existing pairs are all kept and
each entry of `params` is then applied (a `null` value deletes the key, any
other value sets it).  Without `preserveParams`, the deletion pass iterates a
live view of the pair list, so removing a disallowed entry skips the
examination of the entry immediately after it; provided the existing keys
are distinct and no two consecutive entries are both outside the allow-list
`\x7b"page"\x7d ∪ keys(params)`, the result is exactly: the existing
allow-list entries in order, then each entry of `params` applied. -/
theorem c2_amended_navigate :
    ∀ (current : QueryList) (params : List (String × Option String)),
      (navigateQuery current params true = applyParams params current)
      ∧ ((current.map Prod.fst).Nodup →
          noConsecDisallowed (allowedKeys params) current = true →
          navigateQuery current params false =
            applyParams params (current.filter (fun kv => allowedKeys params kv.1))) := by
  intro current params
  constructor
  · unfold navigateQuery
    rw [navLoopF_preserve]
  · intro hnd hnc
    unfold navigateQuery
    have h0 : navLoopF (allowedKeys params) false current.length 0 current =
        [] ++ deleteRun (allowedKeys params) current := by
      have := navLoopF_deleteRun (allowedKeys params) current.length current [] current.length
        rfl (by simpa using hnd) (le_refl _)
      simpa using this
    rw [h0, deleteRun_eq_filter (allowedKeys params) current hnc]
    simp

/-- Witness for C2 (amended): the spec's own allow-list scenario
(`page=car&id=5`, then `navigate(\x7bsort:"asc"\x7d)`): `id` is dropped,
`page` survives, `sort` is set. -/
theorem c2_amended_navigate_witness :
    navigateQuery [("page", "car"), ("id", "5")] [("sort", some "asc")] false =
      [("page", "car"), ("sort", "asc")] := by
  rw [(c2_amended_navigate [("page", "car"), ("id", "5")] [("sort", some "asc")]).2
    (by decide) (by decide)]
  decide

/-! ## `escapeHtml`: the chained replacements are a per-character escape -/

theorem repl_append (c : Char) (r a b : List Char) :
    repl c r (a ++ b) = repl c r a ++ repl c r b := by
  induction a with
  | nil => rfl
  | cons x t ih => simp [repl, ih]

theorem escBlock (x : Char) :
    repl aposChar entApos (repl quoteChar "&quot;".data (repl '>' "&gt;".data
      (repl '<' "&lt;".data (if x = '&' then "&amp;".data else [x])))) = escChar x := by
  by_cases h1 : x = '&'
  · subst h1; decide
  · rw [if_neg h1]
    by_cases h2 : x = '<'
    · subst h2; decide
    · by_cases h3 : x = '>'
      · subst h3; decide
      · by_cases h4 : x = quoteChar
        · subst h4; decide
        · by_cases h5 : x = aposChar
          · subst h5; decide
          · simp [repl, escChar, h1, h2, h3, h4, h5]

theorem escapeHtmlL_cons (x : Char) (s : List Char) :
    escapeHtmlL (x :: s) = escChar x ++ escapeHtmlL s := by
  unfold escapeHtmlL
  rw [show repl '&' "&amp;".data (x :: s) =
      (if x = '&' then "&amp;".data else [x]) ++ repl '&' "&amp;".data s from by simp [repl]]
  rw [repl_append, repl_append, repl_append, repl_append, escBlock]

theorem escapeHtmlL_eq_escAll : ∀ s : List Char, escapeHtmlL s = escAll s
  | [] => rfl
  | x :: s => by rw [escapeHtmlL_cons, escAll, escapeHtmlL_eq_escAll s]

theorem escChar_count_eq_zero (x c : Char) (hc : c ∈ ['<', '>', quoteChar, aposChar]) :
    (escChar x).count c = 0 := by
  have hc' : c = '<' ∨ c = '>' ∨ c = quoteChar ∨ c = aposChar := by simpa using hc
  by_cases h1 : x = '&'
  · subst h1; rcases hc' with rfl | rfl | rfl | rfl <;> decide
  · by_cases h2 : x = '<'
    · subst h2; rcases hc' with rfl | rfl | rfl | rfl <;> decide
    · by_cases h3 : x = '>'
      · subst h3; rcases hc' with rfl | rfl | rfl | rfl <;> decide
      · by_cases h4 : x = quoteChar
        · subst h4; rcases hc' with rfl | rfl | rfl | rfl <;> decide
        · by_cases h5 : x = aposChar
          · subst h5; rcases hc' with rfl | rfl | rfl | rfl <;> decide
          · have hxc : x ≠ c := by rcases hc' with rfl | rfl | rfl | rfl <;> assumption
            simp [escChar, h1, h2, h3, h4, h5, List.count_cons, List.count_nil, hxc]

theorem escAll_count_eq_zero (s : List Char) (c : Char)
    (hc : c ∈ ['<', '>', quoteChar, aposChar]) : (escAll s).count c = 0 := by
  induction s with
  | nil => rfl
  | cons x t ih => rw [escAll, List.count_append, escChar_count_eq_zero x c hc, ih]

theorem escapeHtml_count_eq_zero (v : Value) (c : Char)
    (hc : c ∈ ['<', '>', quoteChar, aposChar]) : (escapeHtml v).count c = 0 := by
  unfold escapeHtml
  rw [escapeHtmlL_eq_escAll]
  exact escAll_count_eq_zero _ c hc

theorem ampOk_escChar_append (x : Char) (r : List Char) :
    ampOk (escChar x ++ r) = ampOk r := by
  by_cases h1 : x = '&'
  · subst h1
    simp [escChar, ampOk, List.isPrefixOf]
  · by_cases h2 : x = '<'
    · subst h2; simp [escChar, ampOk, List.isPrefixOf]
    · by_cases h3 : x = '>'
      · subst h3; simp [escChar, ampOk, List.isPrefixOf]
      · by_cases h4 : x = quoteChar
        · subst h4; simp [escChar, ampOk, List.isPrefixOf, quoteChar, aposChar]
        · by_cases h5 : x = aposChar
          · subst h5; simp [escChar, ampOk, List.isPrefixOf, quoteChar, aposChar]
          · simp [escChar, h1, h2, h3, h4, h5, ampOk]

theorem ampOk_escAll (s : List Char) : ampOk (escAll s) = true := by
  induction s with
  | nil => rfl
  | cons x t ih => rw [escAll, ampOk_escChar_append, ih]

theorem ampOk_escapeHtml (v : Value) : ampOk (escapeHtml v) = true := by
  unfold escapeHtml
  rw [escapeHtmlL_eq_escAll]
  exact ampOk_escAll _

/-! ## Character classes and the scalar scan -/

theorem isWord_not_ws (x : Char) (hx : isWord x = true) : isWs x = false := by
  by_contra h
  have h' : isWs x = true := by simpa using h
  have hx6 : x = ' ' ∨ x = '\t' ∨ x = '\n' ∨ x = '\r' ∨ x = Char.ofNat 11 ∨ x = Char.ofNat 12 := by
    simpa [isWs, or_assoc] using h'
  rcases hx6 with rfl | rfl | rfl | rfl | rfl | rfl <;> exact absurd hx (by decide)

theorem isWs_not_special (x c : Char) (hx : isWs x = true)
    (hc : c ∈ ['<', '>', quoteChar, aposChar]) : x ≠ c := by
  have hx6 : x = ' ' ∨ x = '\t' ∨ x = '\n' ∨ x = '\r' ∨ x = Char.ofNat 11 ∨ x = Char.ofNat 12 := by
    simpa [isWs, or_assoc] using hx
  have hc' : c = '<' ∨ c = '>' ∨ c = quoteChar ∨ c = aposChar := by simpa using hc
  rcases hx6 with rfl | rfl | rfl | rfl | rfl | rfl <;>
    rcases hc' with rfl | rfl | rfl | rfl <;> decide

theorem isWord_not_special (x c : Char) (hx : isWord x = true)
    (hc : c ∈ ['<', '>', quoteChar, aposChar]) : x ≠ c := by
  have hc' : c = '<' ∨ c = '>' ∨ c = quoteChar ∨ c = aposChar := by simpa using hc
  rcases hc' with rfl | rfl | rfl | rfl <;>
    (intro he; subst he; exact absurd hx (by decide))

theorem takeWhile_all_append (p : Char → Bool) (a : List Char) (b : Char) (rest : List Char)
    (ha : ∀ x ∈ a, p x = true) (hb : p b = false) :
    ((a ++ b :: rest).takeWhile p) = a := by
  induction a with
  | nil => simp [List.takeWhile_cons, hb]
  | cons x t ih =>
    have hx : p x = true := ha x (by simp)
    simp only [List.cons_append, List.takeWhile_cons, hx, if_pos]
    rw [ih (fun y hy => ha y (by simp [hy]))]

theorem dropWhile_all_append (p : Char → Bool) (a : List Char) (b : Char) (rest : List Char)
    (ha : ∀ x ∈ a, p x = true) (hb : p b = false) :
    ((a ++ b :: rest).dropWhile p) = b :: rest := by
  induction a with
  | nil => simp [List.dropWhile_cons, hb]
  | cons x t ih =>
    have hx : p x = true := ha x (by simp)
    simp only [List.cons_append, List.dropWhile_cons, hx, if_pos]
    exact ih (fun y hy => ha y (by simp [hy]))

/-- The scalar pattern parses a well-formed `\x7b\x7b k \x7d\x7d` at the head
of the input, capturing exactly `k`. -/
theorem tryScalar_wellformed (k rest : List Char) (hk : k ≠ []) (hkw : k.all isWord = true) :
    tryScalar (openBraces ++ [' '] ++ k ++ [' '] ++ closeBraces ++ rest) = some (k, rest) := by
  obtain ⟨c, k', rfl⟩ : ∃ c k', k = c :: k' := by
    cases k with
    | nil => exact absurd rfl hk
    | cons c k' => exact ⟨c, k', rfl⟩
  have hcw : isWord c = true := by
    rw [List.all_eq_true] at hkw
    exact hkw c (by simp)
  have hword : ∀ x ∈ k', isWord x = true := by
    rw [List.all_eq_true] at hkw
    intro x hx
    exact hkw x (by simp [hx])
  have e1 : openBraces ++ [' '] ++ (c :: k') ++ [' '] ++ closeBraces ++ rest
      = '{' :: '{' :: ' ' :: c :: (k' ++ ' ' :: '}' :: '}' :: rest) := by
    simp [openBraces, closeBraces]
  rw [e1]
  have e2 : (k' ++ ' ' :: '}' :: '}' :: rest).takeWhile isWord = k' :=
    takeWhile_all_append isWord k' ' ' ('}' :: '}' :: rest) hword (by decide)
  have e3 : (k' ++ ' ' :: '}' :: '}' :: rest).dropWhile isWord = ' ' :: '}' :: '}' :: rest :=
    dropWhile_all_append isWord k' ' ' ('}' :: '}' :: rest) hword (by decide)
  have hwsc : isWs c = false := isWord_not_ws c hcw
  have hdrop2 : ('{' :: '{' :: ' ' :: c :: (k' ++ ' ' :: '}' :: '}' :: rest)).drop 2
      = ' ' :: c :: (k' ++ ' ' :: '}' :: '}' :: rest) := rfl
  have hdw1 : (' ' :: c :: (k' ++ ' ' :: '}' :: '}' :: rest)).dropWhile isWs
      = c :: (k' ++ ' ' :: '}' :: '}' :: rest) := by
    rw [List.dropWhile_cons, if_pos (by decide), List.dropWhile_cons,
      if_neg (by simp [hwsc])]
  have htw : (c :: (k' ++ ' ' :: '}' :: '}' :: rest)).takeWhile isWord = c :: k' := by
    rw [List.takeWhile_cons, if_pos hcw, e2]
  have hdw2 : (c :: (k' ++ ' ' :: '}' :: '}' :: rest)).dropWhile isWord
      = ' ' :: '}' :: '}' :: rest := by
    rw [List.dropWhile_cons, if_pos hcw, e3]
  have hdw3 : (' ' :: '}' :: '}' :: rest : List Char).dropWhile isWs = '}' :: '}' :: rest := by
    rw [List.dropWhile_cons, if_pos (by decide), List.dropWhile_cons, if_neg (by decide)]
  unfold tryScalar
  rw [if_pos (by simp [openBraces, List.isPrefixOf]), hdrop2, hdw1, htw, hdw2, hdw3]
  rw [if_neg (by simp), if_pos (by simp [closeBraces, List.isPrefixOf])]
  rfl

theorem take_of_isPrefixOf : ∀ (a l : List Char), a.isPrefixOf l = true → l.take a.length = a
  | [], _, _ => by simp
  | c :: a', [], h => by simp [List.isPrefixOf] at h
  | c :: a', d :: l', h => by
    simp only [List.isPrefixOf, Bool.and_eq_true, beq_iff_eq] at h
    obtain ⟨rfl, h2⟩ := h
    simp [List.take_succ_cons, take_of_isPrefixOf a' l' h2]

theorem append_of_isPrefixOf (a l : List Char) (h : a.isPrefixOf l = true) :
    l = a ++ l.drop a.length := by
  conv_lhs => rw [← List.take_append_drop a.length l]
  rw [take_of_isPrefixOf a l h]

/-- Any successful scalar match decomposes its input as
`prefix ++ matched ++ rest` where the matched text consists of braces,
whitespace and word characters only. -/
theorem tryScalar_spec (l k rest : List Char) (h : tryScalar l = some (k, rest)) :
    ∃ mid, l = mid ++ rest ∧
      (∀ x ∈ mid, isWs x = true ∨ isWord x = true ∨ x = '{' ∨ x = '}') := by
  unfold tryScalar at h
  by_cases h1 : openBraces.isPrefixOf l = true
  · rw [if_pos h1] at h
    by_cases h2 : (((l.drop 2).dropWhile isWs).takeWhile isWord).isEmpty = true
    · rw [if_pos h2] at h
      exact absurd h (by simp)
    · rw [if_neg h2] at h
      by_cases h3 : closeBraces.isPrefixOf
          ((((l.drop 2).dropWhile isWs).dropWhile isWord).dropWhile isWs) = true
      · rw [if_pos h3] at h
        obtain ⟨hkeq, hreq⟩ : ((l.drop 2).dropWhile isWs).takeWhile isWord = k ∧
            ((((l.drop 2).dropWhile isWs).dropWhile isWord).dropWhile isWs).drop 2 = rest := by
          simpa using h
        refine ⟨openBraces ++ ((l.drop 2).takeWhile isWs) ++ k ++
          ((((l.drop 2).dropWhile isWs).dropWhile isWord).takeWhile isWs) ++ closeBraces,
          ?_, ?_⟩
        · have e0 : l = openBraces ++ l.drop 2 := by
            simpa [openBraces] using append_of_isPrefixOf openBraces l h1
          have e1 : l.drop 2 = (l.drop 2).takeWhile isWs ++ (l.drop 2).dropWhile isWs :=
            (List.takeWhile_append_dropWhile isWs _).symm
          have e2 : (l.drop 2).dropWhile isWs =
              k ++ ((l.drop 2).dropWhile isWs).dropWhile isWord := by
            conv_lhs =>
              rw [← List.takeWhile_append_dropWhile isWord ((l.drop 2).dropWhile isWs)]
            rw [hkeq]
          have e3 : ((l.drop 2).dropWhile isWs).dropWhile isWord =
              (((l.drop 2).dropWhile isWs).dropWhile isWord).takeWhile isWs ++
              ((((l.drop 2).dropWhile isWs).dropWhile isWord).dropWhile isWs) :=
            (List.takeWhile_append_dropWhile isWs _).symm
          have e4 : ((((l.drop 2).dropWhile isWs).dropWhile isWord).dropWhile isWs) =
              closeBraces ++ rest := by
            have := append_of_isPrefixOf closeBraces _ h3
            rw [← hreq]
            simpa [closeBraces] using this
          conv_lhs => rw [e0, e1, e2, e3, e4]
          simp [List.append_assoc]
        · intro x hx
          simp only [List.append_assoc, List.mem_append] at hx
          rcases hx with hx | hx | hx | hx | hx
          · have : x = '{' := by
              rcases (by simpa [openBraces] using hx : x = '{' ∨ x = '{') with rfl | rfl <;> rfl
            exact Or.inr (Or.inr (Or.inl this))
          · exact Or.inl (List.mem_takeWhile_imp hx)
          · rw [← hkeq] at hx
            exact Or.inr (Or.inl (List.mem_takeWhile_imp hx))
          · exact Or.inl (List.mem_takeWhile_imp hx)
          · have : x = '}' := by
              rcases (by simpa [closeBraces] using hx : x = '}' ∨ x = '}') with rfl | rfl <;> rfl
            exact Or.inr (Or.inr (Or.inr this))
      · rw [if_neg h3] at h
        exact absurd h (by simp)
  · rw [if_neg h1] at h
    exact absurd h (by simp)

/-- `findScalar` decomposition: input = prefix ++ matched ++ rest, matched
made of braces, whitespace and word characters. -/
theorem findScalar_spec : ∀ (t pre k rest : List Char),
    findScalar t = some (pre, k, rest) →
    ∃ mid, t = pre ++ mid ++ rest ∧
      (∀ x ∈ mid, isWs x = true ∨ isWord x = true ∨ x = '{' ∨ x = '}')
  | [], pre, k, rest, h => by simp [findScalar] at h
  | c :: t', pre, k, rest, h => by
    rw [findScalar] at h
    cases hts : tryScalar (c :: t') with
    | some q =>
      obtain ⟨qk, qr⟩ := q
      rw [hts] at h
      simp only [Option.some.injEq, Prod.mk.injEq] at h
      obtain ⟨rfl, rfl, rfl⟩ := h
      obtain ⟨mid, hm, hcl⟩ := tryScalar_spec (c :: t') qk qr hts
      exact ⟨mid, by simpa using hm, hcl⟩
    | none =>
      rw [hts] at h
      cases hfs : findScalar t' with
      | none =>
        rw [hfs] at h
        exact absurd h (by simp)
      | some q =>
        obtain ⟨qp, qk, qr⟩ := q
        rw [hfs] at h
        simp only [Option.map_some', Option.some.injEq, Prod.mk.injEq] at h
        obtain ⟨rfl, rfl, rfl⟩ := h
        obtain ⟨mid, hm, hcl⟩ := findScalar_spec t' qp qk qr hfs
        exact ⟨mid, by simp [hm], hcl⟩

theorem scalarPassF_nil (p : Value) : ∀ f, scalarPassF p f [] = []
  | 0 => rfl
  | _ + 1 => rfl

/-- The scalar pass never increases the number of raw `<`, `>`, `"`, `'`
characters: matched placeholder text contains none of them and every
substituted value is escaped. -/
theorem scalarPassF_count_le (p : Value) (c : Char)
    (hc : c ∈ ['<', '>', quoteChar, aposChar]) :
    ∀ (f : Nat) (t : List Char), (scalarPassF p f t).count c ≤ t.count c
  | 0, t => le_refl _
  | f + 1, t => by
    rw [scalarPassF]
    cases hfs : findScalar t with
    | none => exact le_refl _
    | some q =>
      obtain ⟨pre, k, rest⟩ := q
      obtain ⟨mid, hm, hcl⟩ := findScalar_spec t pre k rest hfs
      have hmid : mid.count c = 0 := by
        rw [List.count_eq_zero]
        intro hmem
        rcases hcl c hmem with hx | hx | hx | hx
        · exact absurd rfl (isWs_not_special c c hx hc)
        · exact absurd rfl (isWord_not_special c c hx hc)
        · rw [hx] at hc
          exact absurd hc (by decide)
        · rw [hx] at hc
          exact absurd hc (by decide)
      have hrepl : (scalarReplace p k).count c = 0 := by
        unfold scalarReplace
        cases p.lookup (String.mk k) with
        | none => rfl
        | some v => exact escapeHtml_count_eq_zero v c hc
      have hrec := scalarPassF_count_le p c hc f rest
      rw [hm]
      simp only [List.count_append, hmid, hrepl]
      omega

/-! ## C3 — scalar interpolation escapes parameter values -/

/-- C3: a well-formed scalar placeholder `\x7b\x7b k \x7d\x7d` is replaced by
the HTML-escaped string form of `params[k]` — the empty string when the key
is absent (the model is total, so no exception is possible); the scalar pass
never increases the number of raw `<`, `>`, `"`, `'` characters of the
template, so none of these characters can flow from a parameter value into
the output un-escaped; and every escaped value contains no raw `<`, `>`,
`"`, `'` at all while each of its `&` characters heads one of the five
entities. -/
theorem c3_scalar_escaping :
    (∀ (k : List Char) (p : Value), k ≠ [] → k.all isWord = true →
        scalarPass p (openBraces ++ [' '] ++ k ++ [' '] ++ closeBraces) =
          (match p.lookup (String.mk k) with
           | some v => escapeHtml v
           | none => []))
    ∧ (∀ (t : List Char) (p : Value) (c : Char), c ∈ ['<', '>', quoteChar, aposChar] →
        (scalarPass p t).count c ≤ t.count c)
    ∧ (∀ v : Value,
        (escapeHtml v).count '<' = 0 ∧ (escapeHtml v).count '>' = 0 ∧
        (escapeHtml v).count quoteChar = 0 ∧ (escapeHtml v).count aposChar = 0 ∧
        ampOk (escapeHtml v) = true) := by
  refine ⟨?_, ?_, ?_⟩
  · intro k p hk hkw
    have hts : tryScalar ('{' :: '{' :: ' ' :: (k ++ ' ' :: '}' :: '}' :: ([] : List Char)))
        = some (k, []) := by
      simpa [openBraces, closeBraces] using tryScalar_wellformed k [] hk hkw
    have htpl : openBraces ++ [' '] ++ k ++ [' '] ++ closeBraces
        = '{' :: '{' :: ' ' :: (k ++ ' ' :: '}' :: '}' :: ([] : List Char)) := by
      simp [openBraces, closeBraces]
    have hfind : findScalar ('{' :: '{' :: ' ' :: (k ++ ' ' :: '}' :: '}' :: ([] : List Char)))
        = some ([], k, []) := by
      rw [findScalar, hts]
    unfold scalarPass
    rw [htpl]
    obtain ⟨m, hm⟩ : ∃ m,
        ('{' :: '{' :: ' ' :: (k ++ ' ' :: '}' :: '}' :: ([] : List Char))).length = m + 1 :=
      ⟨k.length + 5, by simp only [List.length_cons, List.length_append, List.length_nil]⟩
    rw [hm, scalarPassF, hfind]
    show [] ++ scalarReplace p k ++ scalarPassF p m [] = _
    rw [scalarPassF_nil]
    simp [scalarReplace]
  · intro t p c hc
    exact scalarPassF_count_le p c hc t.length t
  · intro v
    exact ⟨escapeHtml_count_eq_zero v '<' (by decide),
      escapeHtml_count_eq_zero v '>' (by decide),
      escapeHtml_count_eq_zero v quoteChar (by decide),
      escapeHtml_count_eq_zero v aposChar (by decide),
      ampOk_escapeHtml v⟩

/-- Witness for C3 at a concrete template and parameter object. -/
theorem c3_scalar_escaping_witness :
    scalarPass (.vobj (.fcons "v" (.vstr "<b>") .fnil))
        (openBraces ++ [' '] ++ "v".data ++ [' '] ++ closeBraces) = "&lt;b&gt;".data ∧
    (scalarPass (.vobj .fnil) "<i>x</i>".data).count '<' ≤ ("<i>x</i>".data).count '<' := by
  constructor
  · rw [c3_scalar_escaping.1 "v".data (.vobj (.fcons "v" (.vstr "<b>") .fnil))
      (by decide) (by decide)]
    decide
  · exact c3_scalar_escaping.2.1 "<i>x</i>".data (.vobj .fnil) '<' (by decide)

/-! ## C4 — processing order of the three passes -/

/-- C4: `inject` is exactly the composition: iteration pass first, then the
conditional pass on its output, then scalar interpolation on that output.
The two closed conjuncts exhibit the order: a scalar placeholder inside an
unrendered conditional or iteration block never leaks into the output even
though its key is present in the parameters. -/
theorem c4_processing_order :
    (∀ (t : List Char) (p : Value),
        injectL t p = scalarPass p (ifPass p (eachPass t p)))
    ∧ inject "\x7b\x7b#if missing\x7d\x7d\x7b\x7b secret \x7d\x7d\x7b\x7b/if\x7d\x7d"
        (.vobj (.fcons "secret" (.vstr "s") .fnil)) = ""
    ∧ inject "\x7b\x7b#each missing\x7d\x7d\x7b\x7b secret \x7d\x7d\x7b\x7b/each\x7d\x7d"
        (.vobj (.fcons "secret" (.vstr "s") (.fcons "missing" (.vstr "x") .fnil))) = "" :=
  ⟨fun _ _ => rfl, by decide, by decide⟩

/-! ## The iteration block scan -/

/-- The `\x7b\x7b#each` opener parses a well-formed block head, capturing
exactly the key. -/
theorem tryOpenBlock_each_wellformed (k rest : List Char) (hk : k ≠ [])
    (hkw : k.all isWord = true) :
    tryOpenBlock openEach (openEach ++ [' '] ++ k ++ closeBraces ++ rest) = some (k, rest) := by
  obtain ⟨c, k', rfl⟩ : ∃ c k', k = c :: k' := by
    cases k with
    | nil => exact absurd rfl hk
    | cons c k' => exact ⟨c, k', rfl⟩
  have hcw : isWord c = true := by
    rw [List.all_eq_true] at hkw
    exact hkw c (by simp)
  have hword : ∀ x ∈ k', isWord x = true := by
    rw [List.all_eq_true] at hkw
    intro x hx
    exact hkw x (by simp [hx])
  have hwsc : isWs c = false := isWord_not_ws c hcw
  have e1 : openEach ++ [' '] ++ (c :: k') ++ closeBraces ++ rest
      = '{' :: '{' :: '#' :: 'e' :: 'a' :: 'c' :: 'h' :: ' ' :: c :: (k' ++ '}' :: '}' :: rest) := by
    simp [openEach, closeBraces]
  rw [e1]
  have hdrop : ('{' :: '{' :: '#' :: 'e' :: 'a' :: 'c' :: 'h' :: ' ' :: c ::
      (k' ++ '}' :: '}' :: rest)).drop openEach.length = ' ' :: c :: (k' ++ '}' :: '}' :: rest) :=
    rfl
  have e2 : (k' ++ '}' :: '}' :: rest).takeWhile isWord = k' :=
    takeWhile_all_append isWord k' '}' ('}' :: rest) hword (by decide)
  have e3 : (k' ++ '}' :: '}' :: rest).dropWhile isWord = '}' :: '}' :: rest :=
    dropWhile_all_append isWord k' '}' ('}' :: rest) hword (by decide)
  have htws : (' ' :: c :: (k' ++ '}' :: '}' :: rest)).takeWhile isWs = [' '] := by
    rw [List.takeWhile_cons, if_pos (by decide), List.takeWhile_cons, if_neg (by simp [hwsc])]
  have hdws : (' ' :: c :: (k' ++ '}' :: '}' :: rest)).dropWhile isWs
      = c :: (k' ++ '}' :: '}' :: rest) := by
    rw [List.dropWhile_cons, if_pos (by decide), List.dropWhile_cons, if_neg (by simp [hwsc])]
  have htww : (c :: (k' ++ '}' :: '}' :: rest)).takeWhile isWord = c :: k' := by
    rw [List.takeWhile_cons, if_pos hcw, e2]
  have hdww : (c :: (k' ++ '}' :: '}' :: rest)).dropWhile isWord = '}' :: '}' :: rest := by
    rw [List.dropWhile_cons, if_pos hcw, e3]
  unfold tryOpenBlock
  rw [if_pos (by simp [openEach, List.isPrefixOf]), hdrop, htws, hdws, htww, hdww]
  rw [if_neg (by simp), if_neg (by simp), if_pos (by simp [closeBraces, List.isPrefixOf])]
  rfl

theorem isPrefixOf_of_take : ∀ (a l : List Char), l.take a.length = a → a.isPrefixOf l = true
  | [], l, _ => by simp [List.isPrefixOf]
  | c :: a', [], h => by simp at h
  | c :: a', d :: l', h => by
    rw [List.length_cons, List.take_succ_cons] at h
    injection h with h1 h2
    subst h1
    simp [List.isPrefixOf, isPrefixOf_of_take a' l' h2]

theorem containsPat_of_isPrefixOf (pat l : List Char) (h : pat.isPrefixOf l = true) :
    containsPat pat l = true := by
  cases l with
  | nil => simpa [containsPat] using h
  | cons c t => simp [containsPat, h]

/-- If `pat` is a prefix of `b ++ pat` with `b` non-empty, then either `pat`
already starts inside `b`, or `pat` overlaps itself with shift `b.length`. -/
theorem isPrefixOf_append_cases (pat b : List Char) (h : pat.isPrefixOf (b ++ pat) = true) :
    b = [] ∨ (pat.isPrefixOf b = true) ∨
      (0 < b.length ∧ b.length < pat.length ∧
        pat.drop b.length = pat.take (pat.length - b.length)) := by
  cases b with
  | nil => exact Or.inl rfl
  | cons x b' =>
    right
    have htake : (x :: b' ++ pat).take pat.length = pat := take_of_isPrefixOf _ _ h
    by_cases hlen : pat.length ≤ (x :: b').length
    · left
      apply isPrefixOf_of_take
      rw [List.take_append_eq_append_take] at htake
      have h0 : pat.length - (x :: b').length = 0 := by omega
      rw [h0] at htake
      simpa using htake
    · right
      push_neg at hlen
      refine ⟨by simp, hlen, ?_⟩
      rw [List.take_append_eq_append_take,
        List.take_of_length_le (le_of_lt hlen)] at htake
      have hdp := congrArg (List.drop (x :: b').length) htake.symm
      rw [List.drop_left] at hdp
      exact hdp

/-- The closing literal `\x7b\x7b/each\x7d\x7d` cannot overlap itself at any
non-trivial shift. -/
theorem closeEach_no_overlap (d : Nat) (h1 : 0 < d) (h2 : d < closeEach.length) :
    ¬ (closeEach.drop d = closeEach.take (closeEach.length - d)) := by
  have h9 : closeEach.length = 9 := rfl
  rw [h9] at h2
  interval_cases d <;> decide

/-- The first `\x7b\x7b/each\x7d\x7d` in `b ++ \x7b\x7b/each\x7d\x7d` is the
appended one when `b` contains none: the lazy content group captures exactly
`b`. -/
theorem splitClose_append_closeEach : ∀ b : List Char,
    containsPat closeEach b = false →
    splitClose closeEach (b ++ closeEach) = some (b, [])
  | [], _ => by decide
  | x :: b', hb => by
    have hparts : closeEach.isPrefixOf (x :: b') = false ∧ containsPat closeEach b' = false := by
      simpa [containsPat] using hb
    have hnp : ¬ closeEach.isPrefixOf (x :: (b' ++ closeEach)) = true := by
      intro hp
      rcases isPrefixOf_append_cases closeEach (x :: b') hp with h0 | hpre | ⟨hpos, hlt, hov⟩
      · exact absurd h0 (by simp)
      · rw [hparts.1] at hpre
        exact Bool.noConfusion hpre
      · exact closeEach_no_overlap (x :: b').length hpos hlt hov
    rw [List.cons_append, splitClose, if_neg hnp,
      splitClose_append_closeEach b' hparts.2]
    rfl

/-- `findBlock` on a well-formed single `#each` block: the whole template is
one match with empty prefix and empty rest. -/
theorem findBlock_each_wellformed (k b : List Char) (hk : k ≠ []) (hkw : k.all isWord = true)
    (hb : containsPat closeEach b = false) :
    findBlock openEach closeEach (openEach ++ [' '] ++ k ++ closeBraces ++ b ++ closeEach)
      = some ([], k, b, []) := by
  have hto : tryOpenBlock openEach
      ('{' :: '{' :: '#' :: 'e' :: 'a' :: 'c' :: 'h' :: ' ' :: (k ++ '}' :: '}' :: (b ++ closeEach)))
      = some (k, b ++ closeEach) := by
    have := tryOpenBlock_each_wellformed k (b ++ closeEach) hk hkw
    simpa [openEach, closeBraces] using this
  have htpl : openEach ++ [' '] ++ k ++ closeBraces ++ b ++ closeEach
      = '{' :: '{' :: '#' :: 'e' :: 'a' :: 'c' :: 'h' :: ' '
        :: (k ++ '}' :: '}' :: (b ++ closeEach)) := by
    simp [openEach, closeBraces]
  rw [htpl, findBlock, hto]
  simp only [splitClose_append_closeEach b hb]

theorem eachPassF_nil (p : Value) : ∀ f, eachPassF f [] p = []
  | 0 => rfl
  | _ + 1 => rfl

/-- Decomposition of any successful block match: the input splits as
`prefix ++ opener ++ ws ++ key ++ \x7d\x7d ++ content ++ closer ++ rest`,
with `ws` and `key` non-empty.  (This bounds the content and rest strictly
below the input length.) -/
theorem tryOpenBlock_spec (lit l k rest : List Char) (h : tryOpenBlock lit l = some (k, rest)) :
    ∃ ws, l = lit ++ ws ++ k ++ closeBraces ++ rest ∧ ws ≠ [] ∧ k ≠ [] := by
  unfold tryOpenBlock at h
  by_cases h1 : lit.isPrefixOf l = true
  · rw [if_pos h1] at h
    by_cases h2 : ((l.drop lit.length).takeWhile isWs).isEmpty = true
    · rw [if_pos h2] at h
      exact absurd h (by simp)
    · rw [if_neg h2] at h
      by_cases h3 : (((l.drop lit.length).dropWhile isWs).takeWhile isWord).isEmpty = true
      · rw [if_pos h3] at h
        exact absurd h (by simp)
      · rw [if_neg h3] at h
        by_cases h4 : closeBraces.isPrefixOf
            (((l.drop lit.length).dropWhile isWs).dropWhile isWord) = true
        · rw [if_pos h4] at h
          simp only [Option.some.injEq, Prod.mk.injEq] at h
          obtain ⟨hke, hre⟩ := h
          refine ⟨(l.drop lit.length).takeWhile isWs, ?_, by simpa using h2, ?_⟩
          · have e0 : l = lit ++ l.drop lit.length := append_of_isPrefixOf lit l h1
            have e1 : l.drop lit.length =
                (l.drop lit.length).takeWhile isWs ++ (l.drop lit.length).dropWhile isWs :=
              (List.takeWhile_append_dropWhile isWs _).symm
            have e2 : (l.drop lit.length).dropWhile isWs =
                k ++ ((l.drop lit.length).dropWhile isWs).dropWhile isWord := by
              conv_lhs =>
                rw [← List.takeWhile_append_dropWhile isWord
                  ((l.drop lit.length).dropWhile isWs)]
              rw [hke]
            have e3 : ((l.drop lit.length).dropWhile isWs).dropWhile isWord =
                closeBraces ++ rest := by
              have := append_of_isPrefixOf closeBraces _ h4
              rw [← hre]
              simpa [closeBraces] using this
            conv_lhs => rw [e0, e1, e2, e3]
            simp [List.append_assoc]
          · rw [← hke]
            simpa using h3
        · rw [if_neg h4] at h
          exact absurd h (by simp)
  · rw [if_neg h1] at h
    exact absurd h (by simp)

/-- First occurrence yielded by `splitClose` really decomposes the input. -/
theorem splitClose_spec : ∀ (pat l a b : List Char),
    splitClose pat l = some (a, b) → l = a ++ pat ++ b
  | pat, [], a, b, h => by
    unfold splitClose at h
    by_cases hp : pat.isEmpty = true
    · rw [if_pos hp] at h
      simp only [Option.some.injEq, Prod.mk.injEq] at h
      obtain ⟨rfl, rfl⟩ := h
      have : pat = [] := by simpa using hp
      simp [this]
    · rw [if_neg hp] at h
      exact absurd h (by simp)
  | pat, c :: t, a, b, h => by
    rw [splitClose] at h
    by_cases hp : pat.isPrefixOf (c :: t) = true
    · rw [if_pos hp] at h
      simp only [Option.some.injEq, Prod.mk.injEq] at h
      obtain ⟨rfl, rfl⟩ := h
      simpa using append_of_isPrefixOf pat (c :: t) hp
    · rw [if_neg hp] at h
      cases hs : splitClose pat t with
      | none =>
        rw [hs] at h
        exact absurd h (by simp)
      | some q =>
        obtain ⟨qa, qb⟩ := q
        rw [hs] at h
        simp only [Option.map_some', Option.some.injEq, Prod.mk.injEq] at h
        obtain ⟨rfl, rfl⟩ := h
        have := splitClose_spec pat t qa qb hs
        simp [this]

/-- Decomposition of any successful `findBlock` match. -/
theorem findBlock_spec (lit close : List Char) : ∀ (t pre k c r : List Char),
    findBlock lit close t = some (pre, k, c, r) →
    ∃ ws, t = pre ++ lit ++ ws ++ k ++ closeBraces ++ c ++ close ++ r ∧ ws ≠ [] ∧ k ≠ []
  | [], pre, k, c, r, h => by simp [findBlock] at h
  | x :: t', pre, k, c, r, h => by
    rw [findBlock] at h
    cases hto : tryOpenBlock lit (x :: t') with
    | some q =>
      obtain ⟨qk, qa⟩ := q
      rw [hto] at h
      cases hsc : splitClose close qa with
      | some s =>
        obtain ⟨sc, sr⟩ := s
        simp only [hsc, Option.some.injEq, Prod.mk.injEq] at h
        obtain ⟨rfl, rfl, rfl, rfl⟩ := h
        obtain ⟨ws, hw, hws, hqk⟩ := tryOpenBlock_spec lit (x :: t') qk qa hto
        have hq := splitClose_spec close qa sc sr hsc
        refine ⟨ws, ?_, hws, hqk⟩
        rw [hq] at hw
        simpa [List.append_assoc] using hw
      | none =>
        simp only [hsc] at h
        cases hfb : findBlock lit close t' with
        | none =>
          rw [hfb] at h
          exact absurd h (by simp)
        | some q2 =>
          obtain ⟨qp, qk2, qc, qr⟩ := q2
          rw [hfb] at h
          simp only [Option.map_some', Option.some.injEq, Prod.mk.injEq] at h
          obtain ⟨rfl, rfl, rfl, rfl⟩ := h
          obtain ⟨ws, hw, hws, hk2⟩ := findBlock_spec lit close t' qp qk2 qc qr hfb
          exact ⟨ws, by simp [hw], hws, hk2⟩
    | none =>
      rw [hto] at h
      cases hfb : findBlock lit close t' with
      | none =>
        rw [hfb] at h
        exact absurd h (by simp)
      | some q2 =>
        obtain ⟨qp, qk2, qc, qr⟩ := q2
        rw [hfb] at h
        simp only [Option.map_some', Option.some.injEq, Prod.mk.injEq] at h
        obtain ⟨rfl, rfl, rfl, rfl⟩ := h
        obtain ⟨ws, hw, hws, hk2⟩ := findBlock_spec lit close t' qp qk2 qc qr hfb
        exact ⟨ws, by simp [hw], hws, hk2⟩

theorem eachReplace_congr (rec rec' : Value → List Char) (p : Value) (key : List Char)
    (h : ∀ v, rec v = rec' v) : eachReplace rec p key = eachReplace rec' p key := by
  unfold eachReplace
  cases p.lookup (String.mk key) with
  | none => rfl
  | some v =>
    cases v with
    | varr xs =>
      have hmap : xs.toList.map rec = xs.toList.map rec' :=
        List.map_congr_left (fun item _ => h item)
      simp only [hmap]
    | vnull => rfl
    | vbool b => rfl
    | vnum n => rfl
    | vstr s => rfl
    | vobj fs => rfl

/-- Fuel irrelevance for the iteration pass: any fuel of at least the
template length computes the same result, so the wrapper's seed is
sufficient. -/
theorem eachPassF_irrel : ∀ (n : Nat) (t : List Char) (p : Value) (f g : Nat),
    t.length = n → t.length ≤ f → t.length ≤ g → eachPassF f t p = eachPassF g t p := by
  intro n
  induction n using Nat.strong_induction_on with
  | _ n ih =>
    intro t p f g hn hf hg
    subst hn
    cases t with
    | nil => rw [eachPassF_nil, eachPassF_nil]
    | cons x t' =>
      obtain ⟨f', rfl⟩ : ∃ f', f = f' + 1 :=
        ⟨f - 1, by simp only [List.length_cons] at hf; omega⟩
      obtain ⟨g', rfl⟩ : ∃ g', g = g' + 1 :=
        ⟨g - 1, by simp only [List.length_cons] at hg; omega⟩
      rw [eachPassF, eachPassF]
      cases hfb : findBlock openEach closeEach (x :: t') with
      | none => rfl
      | some q =>
        obtain ⟨pre, k, c, r⟩ := q
        obtain ⟨ws, hw, hws, hk⟩ := findBlock_spec openEach closeEach (x :: t') pre k c r hfb
        have hws1 : 0 < ws.length := List.length_pos.mpr hws
        have hk1 : 0 < k.length := List.length_pos.mpr hk
        have hxt : (x :: t').length = t'.length + 1 := by simp
        have hlen := congrArg List.length hw
        simp only [List.length_cons, List.length_append, openEach, closeEach, closeBraces,
          List.length_nil] at hlen
        simp only [List.length_cons] at hf hg
        have hR : eachPassF f' r p = eachPassF g' r p :=
          ih r.length (by omega) r p f' g' rfl (by omega) (by omega)
        have hA : ∀ item : Value,
            eachPassF f' c item = eachPassF g' c item := fun item =>
          ih c.length (by omega) c item f' g' rfl (by omega) (by omega)
        show pre ++ eachReplace
            (fun item => scalarPass item (ifPass item (eachPassF f' c item))) p k
            ++ eachPassF f' r p
          = pre ++ eachReplace
            (fun item => scalarPass item (ifPass item (eachPassF g' c item))) p k
            ++ eachPassF g' r p
        rw [hR, eachReplace_congr _ _ p k (fun item => by rw [hA item])]

/-! ## C5 — iteration-block semantics -/

/-- C5 counterexample: the claim's example expects
`render("<loop items>[<< v >>]<end loop>", \x7bitems: ["a","<b>"]\x7d)` to be
`"[a][&lt;b&gt;]"`; the code yields `"[][]"`, because a string element,
substituted as the full parameter object, exposes no `v` property, and the
scalar placeholder substitutes the empty string. -/
theorem c5_counterexample :
    inject "\x7b\x7b#each items\x7d\x7d[\x7b\x7b v \x7d\x7d]\x7b\x7b/each\x7d\x7d"
        (.vobj (.fcons "items" (.varr (.cons (.vstr "a") (.cons (.vstr "<b>") .nil))) .fnil))
      = "[][]" ∧
    ("[][]" : String) ≠ "[a][&lt;b&gt;]" :=
  ⟨by decide, by decide⟩

/-- C5 (amended): for a well-formed iteration block (word-character key, body
without a closing literal), a non-array value at the key renders the block as
the empty string, and an array renders the body once per element with the
element substituted as the full parameter object of the nested recursive
render.  The claim's example input `\x7bitems: ["a","<b>"]\x7d` therefore
yields `"[][]"` (string elements expose no `v` property); element objects
`\x7bv: ...\x7d` yield the originally claimed `"[a][&lt;b&gt;]"`. -/
theorem c5_amended_iteration :
    (∀ (k b : List Char) (p : Value), k ≠ [] → k.all isWord = true →
        containsPat closeEach b = false →
        eachPass (openEach ++ [' '] ++ k ++ closeBraces ++ b ++ closeEach) p =
          (match p.lookup (String.mk k) with
           | some (.varr xs) => (xs.toList.map (fun item => injectL b item)).flatten
           | _ => []))
    ∧ inject "\x7b\x7b#each items\x7d\x7d[\x7b\x7b v \x7d\x7d]\x7b\x7b/each\x7d\x7d"
        (.vobj (.fcons "items" (.varr (.cons (.vstr "a") (.cons (.vstr "<b>") .nil))) .fnil))
        = "[][]"
    ∧ inject "\x7b\x7b#each items\x7d\x7d[\x7b\x7b v \x7d\x7d]\x7b\x7b/each\x7d\x7d"
        (.vobj (.fcons "items"
          (.varr (.cons (.vobj (.fcons "v" (.vstr "a") .fnil))
            (.cons (.vobj (.fcons "v" (.vstr "<b>") .fnil)) .nil))) .fnil))
        = "[a][&lt;b&gt;]" := by
  refine ⟨?_, by decide, by decide⟩
  intro k b p hk hkw hb
  unfold eachPass
  obtain ⟨m, hm⟩ : ∃ m,
      (openEach ++ [' '] ++ k ++ closeBraces ++ b ++ closeEach).length = m + 1 :=
    ⟨(openEach ++ [' '] ++ k ++ closeBraces ++ b ++ closeEach).length - 1, by
      simp only [List.length_append, openEach, closeBraces, closeEach, List.length_cons,
        List.length_nil]
      omega⟩
  have hbm : b.length ≤ m := by
    have := hm
    simp only [List.length_append, openEach, closeBraces, closeEach, List.length_cons,
      List.length_nil] at this
    omega
  rw [hm, eachPassF, findBlock_each_wellformed k b hk hkw hb]
  show ([] : List Char) ++ eachReplace
      (fun item => scalarPass item (ifPass item (eachPassF m b item))) p k
      ++ eachPassF m [] p = _
  rw [eachPassF_nil,
    eachReplace_congr _ (fun item => injectL b item) p k (fun item => by
      unfold injectL
      rw [eachPassF_irrel b.length b item m b.length rfl hbm (le_refl _)])]
  simp [eachReplace]

/-- Witness for C5 (amended) at a concrete block. -/
theorem c5_amended_iteration_witness :
    eachPass (openEach ++ [' '] ++ "items".data ++ closeBraces ++ "[x]".data ++ closeEach)
        (.vobj (.fcons "items" (.varr (.cons (.vstr "a") .nil)) .fnil)) = "[x]".data := by
  rw [c5_amended_iteration.1 "items".data "[x]".data
    (.vobj (.fcons "items" (.varr (.cons (.vstr "a") .nil)) .fnil))
    (by decide) (by decide) (by decide)]
  decide

end CarSpa
